import Mathlib

/-!
Verification of the atlantis.yaml generator (main.go).

The development shallowly embeds the program:
  - strings are Lean String values; character-level helpers work on the
    underlying List Char;
  - the Go standard-library helpers the program calls (filepath.Clean,
    filepath.Join, strings.Replace with count 1, sort.Strings) are embedded
    as executable Lean functions following the library algorithms;
  - the filesystem is abstracted by a predicate (String to Bool) standing for
    os.Stat-based existence, and the walked directory tree is an explicit
    inductive tree carrying, per directory, the module-inspector answers
    (is it a module, does it declare a backend, which sources it calls);
  - the recursive path resolver getWhenModifiedPaths, whose Go original can
    diverge on cyclic dependency graphs, is embedded with an explicit fuel
    argument; the value none means the recursion exceeded the given depth
    (so divergence is "none for every fuel");
  - the goroutine fan-out of addProjectsToConfig is embedded with an explicit
    completion schedule: the list of project indices in the order in which
    the concurrent appends to the shared slice land.
-/

/-! ## Character-level string helpers -/

/-- Split a character list at every slash, keeping empty chunks, mirroring
how the Go path cleaner scans separator-delimited elements. -/
def splitSlash : List Char → List (List Char)
  | [] => [[]]
  | c :: cs =>
    if c = '/' then [] :: splitSlash cs
    else
      match splitSlash cs with
      | [] => [[c]]
      | s :: ss => (c :: s) :: ss

/-- Join path segments with slashes (inverse direction of splitSlash). -/
def joinSlash : List (List Char) → List Char
  | [] => []
  | [s] => s
  | s :: rest => s ++ '/' :: joinSlash rest

/-- One step of the element stack of Go filepath.Clean: empty and dot
elements are dropped; a dotdot element pops the last real element, is
dropped at a root, and otherwise accumulates; real elements are pushed.
In the Go byte machine the out.w and dotdot counters encode exactly the
invariant that the stack is a run of dotdot elements followed by real
elements; the stack form makes that explicit. -/
def cleanPush (rooted : Bool) (out : List (List Char)) (seg : List Char) :
    List (List Char) :=
  if seg = [] ∨ seg = ['.'] then out
  else if seg = ['.', '.'] then
    match out.getLast? with
    | none => if rooted then [] else [['.', '.']]
    | some t =>
      if t = ['.', '.'] then (if rooted then out else out ++ [['.', '.']])
      else out.dropLast
  else out ++ [seg]

/-- Go filepath.Clean on a character list (Unix rules, no volume names):
shortest lexically equivalent path, collapsing duplicate slashes and
dot and dotdot elements, with "." for the empty result. -/
def cleanChars (l : List Char) : List Char :=
  if l = [] then ['.']
  else
    let rooted := l.head? = some '/'
    let out := (splitSlash l).foldl (cleanPush rooted) []
    let joined := joinSlash out
    if rooted then (if joined = [] then ['/'] else '/' :: joined)
    else (if joined = [] then ['.'] else joined)

/-- Go filepath.Clean, as called at main.go:196 and main.go:219. -/
def filepathClean (s : String) : String := ⟨cleanChars s.data⟩

/-- Go strings.Replace(s, old, new, 1) on character lists: rewrite the
leftmost occurrence of old (anywhere in s, not only at the front), leaving
s unchanged when old does not occur. -/
def replFirst (old new : List Char) : List Char → List Char
  | [] => if old.isPrefixOf ([] : List Char) then new else []
  | c :: cs =>
    if old.isPrefixOf (c :: cs) then new ++ (c :: cs).drop old.length
    else c :: replFirst old new cs

/-- Go strings.Replace with count 1, as called at main.go:163 and
main.go:218. -/
def stringsReplaceOnce (s old new : String) : String :=
  ⟨replFirst old.data new.data s.data⟩

/-- Go filepath.Join on two elements: empty elements are dropped and the
slash-joined result is cleaned, as called at main.go:86. -/
def filepathJoin (a b : String) : String :=
  if a = "" ∧ b = "" then ""
  else if a = "" then filepathClean b
  else if b = "" then filepathClean a
  else filepathClean (a ++ "/" ++ b)

/-- Lexicographic comparison of character lists by code point, which for
UTF-8 encoded strings agrees with the byte order Go sort.Strings uses. -/
def listLe : List Char → List Char → Bool
  | [], _ => true
  | _ :: _, [] => false
  | a :: as, b :: bs =>
    if a.toNat < b.toNat then true
    else if b.toNat < a.toNat then false
    else listLe as bs

/-- String order backing the embedding of Go sort.Strings. -/
def strLe (a b : String) : Bool := listLe a.data b.data

/-- Go sort.Strings at main.go:225: ascending lexicographic sort. The Go
sort is unstable, but cleanPaths only sorts an already deduplicated list,
on which every correct sort yields this same unique result. -/
def sortStrings (l : List String) : List String :=
  List.insertionSort (fun a b => strLe a b = true) l

/-! Sanity checks of the Clean embedding against documented Go behavior. -/

example : filepathClean "" = "." := by decide
example : filepathClean "abc//def//ghi" = "abc/def/ghi" := by decide
example : filepathClean "abc/./def" = "abc/def" := by decide
example : filepathClean "abc/def/../ghi/../jkl" = "abc/jkl" := by decide
example : filepathClean "abc/def/../.." = "." := by decide
example : filepathClean "abc/def/../../.." = ".." := by decide
example : filepathClean "/abc/def/../../.." = "/" := by decide
example : filepathClean "../../abc" = "../../abc" := by decide
example : filepathClean "/../abc" = "/abc" := by decide
example : filepathClean "abc/" = "abc" := by decide
example : filepathClean "a/b/../../x" = "x" := by decide
example : filepathClean "r/project1/../modules/module1/../module2"
    = "r/modules/module2" := by decide
example : stringsReplaceOnce "a/p/b" "p/" "" = "a/b" := by decide
example : stringsReplaceOnce "xy" "p/" "" = "xy" := by decide
example : filepathJoin "r/a" "../m" = "r/m" := by decide
example : sortStrings ["b", "a", "**/*"] = ["**/*", "a", "b"] := by decide

/-! ## Data model (main.go:25-45) -/

/-- The fixed ignore set, main.go:25. -/
def IGNORE_DIRS : List String := [".circleci", ".git", ".github", ".terraform"]

/-- AutoplanConfig, main.go:42-45. -/
structure AutoplanConfig where
  enabled : Bool
  whenModified : List String
deriving DecidableEq, Repr

/-- ProjectConfig, main.go:36-40. -/
structure ProjectConfig where
  autoplan : AutoplanConfig
  name : String
  dir : String
deriving DecidableEq, Repr

/-- AtlantisConfig, main.go:27-34. -/
structure AtlantisConfig where
  automerge : Bool
  deleteSourceBranchOnMerge : Bool
  parallelApply : Bool
  parallelPlan : Bool
  projects : List ProjectConfig
  version : Int
deriving DecidableEq, Repr

/-- The dependency map built by the walk: association list from directory
path to its ordered dependency addresses, standing for the Go map
(Go map iteration order never matters below: the map is only indexed). -/
abbrev DepMap := List (String × List String)

/-- Go map indexing dependencies[key]: the zero value (empty list) when the
key is absent, exactly as at main.go:198. -/
def mapGet : DepMap → String → List String
  | [], _ => []
  | (k, v) :: rest, key => if k = key then v else mapGet rest key

/-- Whether a key is present in the dependency map. -/
def mapHasKey : DepMap → String → Bool
  | [], _ => false
  | (k, _) :: rest, key => k = key || mapHasKey rest key

/-! ## Transitive closure resolver (main.go:187-204) -/

/-- getWhenModifiedPaths, main.go:187-204, with explicit recursion fuel.
The Go function looks the dependency map up under the cleaned current path
and, for each dependency address in sequence order, first appends the raw
pattern path ++ "/" ++ dep ++ "/**/*" and then the recursive result for
path ++ "/" ++ dep. The Go recursion has no termination guard; fuel value
none models exceeding any given recursion depth, so the Go divergence on a
cyclic graph is "none at every fuel". -/
def getWMPF : Nat → String → DepMap → Option (List String)
  | 0, _, _ => none
  | f + 1, path, deps =>
    (mapGet deps (filepathClean path)).foldr
      (fun d acc =>
        match getWMPF f (path ++ "/" ++ d) deps, acc with
        | some sub, some tail =>
            some ((path ++ "/" ++ d ++ "/**/*") :: (sub ++ tail))
        | _, _ => none)
      (some [])

/-- Transcribed from spec section 4.2 (Transitive Closure Resolver), for
comparison with getWMPF: normalize the current path lexically to obtain the
graph lookup key; for each dependency address d of the looked-up node, in
sequence order, emit the raw path currentPath + "/" + d + "/**/*" and then
recurse into currentPath + "/" + d, appending its results; return the
accumulated, order-preserving list. The accumulation is written as the
left fold the spec describes (emit, then append the recursive result). -/
def closureResolveSpecF : Nat → String → DepMap → Option (List String)
  | 0, _, _ => none
  | f + 1, path, deps =>
    (mapGet deps (filepathClean path)).foldl
      (fun acc d =>
        match acc, closureResolveSpecF f (path ++ "/" ++ d) deps with
        | some done, some sub =>
            some (done ++ (path ++ "/" ++ d ++ "/**/*") :: sub)
        | _, _ => none)
      (some [])

/-- The per-level loop of getWMPF, named for reasoning: the body of the
fold in the successor case of getWMPF. -/
def goWMP (f : Nat) (path : String) (deps : DepMap) (ds : List String) :
    Option (List String) :=
  ds.foldr
    (fun d acc =>
      match getWMPF f (path ++ "/" ++ d) deps, acc with
      | some sub, some tail =>
          some ((path ++ "/" ++ d ++ "/**/*") :: (sub ++ tail))
      | _, _ => none)
    (some [])

/-- The per-level loop of the spec transcription, named for reasoning. -/
def goSpec (f : Nat) (path : String) (deps : DepMap) (ds : List String)
    (done : List String) : Option (List String) :=
  ds.foldl
    (fun acc d =>
      match acc, closureResolveSpecF f (path ++ "/" ++ d) deps with
      | some dn, some sub =>
          some (dn ++ (path ++ "/" ++ d ++ "/**/*") :: sub)
      | _, _ => none)
    (some done)

/-- The immediate successors of a path in the recursion of the resolver:
one extended path per dependency address of the node looked up under the
cleaned current path. -/
def stepSuccs (deps : DepMap) (p : String) : List String :=
  (mapGet deps (filepathClean p)).map (fun d => p ++ "/" ++ d)

/-! ## Path normalizer (main.go:214-243) -/

/-- The accumulation loop of cleanPaths, main.go:217-221: strip one
occurrence of project ++ "/" (Go strings.Replace with count 1), clean the
remainder, append to the accumulator. -/
def cleanPathsLoop (project : String) : List String → List String → List String
  | [], acc => acc
  | p :: rest, acc =>
      cleanPathsLoop project rest
        (acc ++ [filepathClean (stringsReplaceOnce p (project ++ "/") "")])

/-- The dedup loop of unique, main.go:235-240, carrying the key set
(the Go allKeys map, as the list of keys in insertion order) and the
output list. -/
def uniqueLoop : List String → List String → List String → List String
  | [], _, acc => acc
  | x :: rest, keys, acc =>
      if x ∈ keys then uniqueLoop rest keys acc
      else uniqueLoop rest (keys ++ [x]) (acc ++ [x])

/-- unique, main.go:231-243: drop duplicates, keeping first occurrences. -/
def unique (paths : List String) : List String := uniqueLoop paths [] []

/-- cleanPaths, main.go:214-228: rewrite each raw path, append the literal
pattern, dedup, sort. -/
def cleanPaths (paths : List String) (project : String) : List String :=
  sortStrings (unique (cleanPathsLoop project paths [] ++ ["**/*"]))

/-- Transcribed from spec section 4.3 step 1 as the claim reads it: remove
exactly one leading occurrence of pre, leaving the string unchanged when it
does not start with pre. -/
def stripLeadingOnce (s pre : String) : String :=
  if pre.data.isPrefixOf s.data then ⟨s.data.drop pre.data.length⟩ else s

/-- Transcribed from spec section 4.3 step 4: deduplicate while preserving
first-seen order (scan left, keep each element the first time it is seen). -/
def dedupFirstSeen (l : List String) : List String :=
  l.foldl (fun acc x => if x ∈ acc then acc else acc ++ [x]) []

/-- Transcribed from spec section 4.3 as the claim reads it (five steps,
with step 1 removing one LEADING occurrence of the project prefix):
strip the leading prefix, clean, append the literal pattern, dedup
preserving first-seen order, sort ascending. -/
def pathNormalizeSpecLeading (paths : List String) (project : String) :
    List String :=
  sortStrings (dedupFirstSeen
    (((paths.map (fun p => stripLeadingOnce p (project ++ "/"))).map
        filepathClean) ++ ["**/*"]))

/-- The five-step pipeline of spec section 4.3 with step 1 amended to what
the code does: remove the FIRST occurrence of the project prefix anywhere
in the string (Go strings.Replace with count 1). -/
def pathNormalizeFirstOcc (paths : List String) (project : String) :
    List String :=
  sortStrings (dedupFirstSeen
    (((paths.map (fun p => stringsReplaceOnce p (project ++ "/") "")).map
        filepathClean) ++ ["**/*"]))

/-! ## Project config assembly (main.go:128-175) -/

/-- makeProjectConfig, main.go:160-175, fueled through the resolver:
none when the resolver recursion exceeds the fuel. -/
def makeProjectConfigF (f : Nat) (root project : String) (deps : DepMap) :
    Option ProjectConfig :=
  (getWMPF f project deps).map (fun whenModifiedPaths =>
    let cleanedPaths := cleanPaths whenModifiedPaths project
    let projectRelativePath := stringsReplaceOnce project (root ++ "/") ""
    { autoplan := { enabled := true, whenModified := cleanedPaths }
      dir := projectRelativePath
      name := projectRelativePath })

/-- addProjectsToConfig, main.go:128-145. The Go code first replaces any
pre-existing projects list with the empty list (main.go:130) and then
spawns one goroutine per project index, each appending its
makeProjectConfig result to the shared projects slice with no
synchronization. The order parameter is the completion schedule: the
project indices in the order in which those appends land. An index outside
the projects list cannot arise in the Go loop and poisons the result. -/
def addProjectsToConfigF (f : Nat) (root : String) (cfg : AtlantisConfig)
    (projects : List String) (deps : DepMap) (order : List Nat) :
    Option AtlantisConfig :=
  order.foldl
    (fun acc i =>
      acc.bind (fun c =>
        projects[i]?.bind (fun p =>
          (makeProjectConfigF f root p deps).map (fun pc =>
            { c with projects := c.projects ++ [pc] }))))
    (some { cfg with projects := [] })

/-! ## Dependency graph builder (main.go:54-102) -/

/-- The walked directory tree: each node carries the directory's base name
together with the module-inspector answers for it (tfconfig.IsModuleDir,
module.Backend presence, the module call source addresses in iteration
order), and the child directories in the lexical order filepath.Walk
visits them. Plain files need no representation: the walk callback returns
early on them (main.go:63-65). -/
inductive DirTree : Type where
  | node : String → Bool → Bool → List String → List DirTree → DirTree

/-- Base name of the directory, info.Name() at main.go:67. -/
def DirTree.name : DirTree → String
  | .node nm _ _ _ _ => nm

/-- The module-call filter loop, main.go:85-91: keep an address when the
joined path exists on disk (fs abstracts fileExists, main.go:148-157) and
the exact address string is not already in the sequence. -/
def processCalls (fs : String → Bool) (path : String) :
    List String → List String → List String
  | [], acc => acc
  | c :: rest, acc =>
      if fs (filepathJoin path c) = true ∧ c ∉ acc then
        processCalls fs path rest (acc ++ [c])
      else processCalls fs path rest acc

/-- One walk accumulator: the project list and the dependency map, in
insertion order. -/
abbrev WalkAcc := List String × DepMap

/-- The filepath.Walk callback of main.go:58-95 applied to one directory
and, recursively, its subtree: an ignore-listed name prunes the subtree
(filepath.SkipDir); otherwise the directory receives its dependency-map
entry, a backend-declaring module joins the project list, and the children
are visited in order (the attach is only the termination bookkeeping of the
nested recursion). -/
def walkTree (fs : String → Bool) (path : String) :
    DirTree → WalkAcc → WalkAcc
  | .node nm im hb calls children, acc =>
    if nm ∈ IGNORE_DIRS then acc
    else
      children.attach.foldl
        (fun a c => walkTree fs (filepathJoin path c.1.name) c.1 a)
        (if im ∧ hb then acc.1 ++ [path] else acc.1,
          acc.2 ++ [(path, if im then processCalls fs path calls [] else [])])
decreasing_by
  have h1 : sizeOf c.1 < sizeOf children := List.sizeOf_lt_of_mem c.2
  simp only [DirTree.node.sizeOf_spec]
  omega

/-- Visit a list of sibling subtrees in order, each under its joined path. -/
def walkForest (fs : String → Bool) (path : String) (ts : List DirTree)
    (acc : WalkAcc) : WalkAcc :=
  ts.foldl (fun a c => walkTree fs (filepathJoin path c.name) c a) acc

/-- getProjectsAndDependencies, main.go:54-102: walk the tree rooted at the
repository root and return the project list and the dependency map. -/
def getProjectsAndDependencies (fs : String → Bool) (root : String)
    (tree : DirTree) : WalkAcc :=
  walkTree fs root tree ([], [])

/-! ## Order lemmas for the sort embedding -/

theorem listLe_total : ∀ a b : List Char, listLe a b = true ∨ listLe b a = true
  | [], _ => Or.inl rfl
  | _ :: _, [] => Or.inr rfl
  | a :: as, b :: bs => by
    simp only [listLe]
    rcases Nat.lt_trichotomy a.toNat b.toNat with h | h | h
    · left; simp [h]
    · have hba : ¬ b.toNat < a.toNat := by omega
      have hab : ¬ a.toNat < b.toNat := by omega
      rcases listLe_total as bs with ih | ih <;> simp [hab, hba, ih]
    · right; simp [h]

theorem listLe_trans : ∀ a b c : List Char,
    listLe a b = true → listLe b c = true → listLe a c = true
  | [], _, _, _, _ => rfl
  | _ :: _, [], _, h, _ => by simp [listLe] at h
  | _ :: _, _ :: _, [], _, h => by simp [listLe] at h
  | a :: as, b :: bs, c :: cs, h₁, h₂ => by
    simp only [listLe] at h₁ h₂ ⊢
    rcases Nat.lt_trichotomy a.toNat b.toNat with hab | hab | hab
    · rcases Nat.lt_trichotomy b.toNat c.toNat with hbc | hbc | hbc
      · have : a.toNat < c.toNat := by omega
        simp [this]
      · have : a.toNat < c.toNat := by omega
        simp [this]
      · exfalso
        simp only [if_neg (by omega : ¬ b.toNat < c.toNat), if_pos hbc] at h₂
        exact Bool.false_ne_true h₂
    · rcases Nat.lt_trichotomy b.toNat c.toNat with hbc | hbc | hbc
      · have : a.toNat < c.toNat := by omega
        simp [this]
      · have h₁' : listLe as bs = true := by
          simpa [if_neg (by omega : ¬ a.toNat < b.toNat),
            if_neg (by omega : ¬ b.toNat < a.toNat)] using h₁
        have h₂' : listLe bs cs = true := by
          simpa [if_neg (by omega : ¬ b.toNat < c.toNat),
            if_neg (by omega : ¬ c.toNat < b.toNat)] using h₂
        have hac : ¬ a.toNat < c.toNat := by omega
        have hca : ¬ c.toNat < a.toNat := by omega
        simp [hac, hca, listLe_trans as bs cs h₁' h₂']
      · exfalso
        simp only [if_neg (by omega : ¬ b.toNat < c.toNat), if_pos hbc] at h₂
        exact Bool.false_ne_true h₂
    · exfalso
      simp only [if_neg (by omega : ¬ a.toNat < b.toNat), if_pos hab] at h₁
      exact Bool.false_ne_true h₁

instance : IsTotal String (fun a b => strLe a b = true) :=
  ⟨fun a b => listLe_total a.data b.data⟩

instance : IsTrans String (fun a b => strLe a b = true) :=
  ⟨fun a b c => listLe_trans a.data b.data c.data⟩

theorem sortStrings_sorted (l : List String) :
    (sortStrings l).Sorted (fun a b => strLe a b = true) :=
  List.sorted_insertionSort _ l

theorem sortStrings_perm (l : List String) : (sortStrings l).Perm l :=
  List.perm_insertionSort _ l

/-! ## Lemmas about the dedup loop -/

theorem uniqueLoop_mem : ∀ (l keys acc : List String),
    (∀ x, x ∈ keys ↔ x ∈ acc) →
    ∀ a, a ∈ uniqueLoop l keys acc ↔ a ∈ acc ∨ a ∈ l
  | [], _, _, _, a => by simp [uniqueLoop]
  | x :: rest, keys, acc, hka, a => by
    simp only [uniqueLoop]
    by_cases hx : x ∈ keys
    · rw [if_pos hx, uniqueLoop_mem rest keys acc hka a]
      constructor
      · rintro (h | h)
        · exact Or.inl h
        · exact Or.inr (List.mem_cons_of_mem _ h)
      · rintro (h | h)
        · exact Or.inl h
        · rcases List.mem_cons.mp h with rfl | h
          · exact Or.inl ((hka a).mp hx)
          · exact Or.inr h
    · rw [if_neg hx,
        uniqueLoop_mem rest (keys ++ [x]) (acc ++ [x])
          (fun y => by
            simp only [List.mem_append, List.mem_singleton]
            exact or_congr_left (hka y)) a]
      simp only [List.mem_append, List.mem_singleton, List.mem_cons]
      tauto

theorem uniqueLoop_nodup : ∀ (l keys acc : List String),
    (∀ x, x ∈ keys ↔ x ∈ acc) → acc.Nodup → (uniqueLoop l keys acc).Nodup
  | [], _, _, _, h => h
  | x :: rest, keys, acc, hka, hnd => by
    simp only [uniqueLoop]
    by_cases hx : x ∈ keys
    · rw [if_pos hx]; exact uniqueLoop_nodup rest keys acc hka hnd
    · rw [if_neg hx]
      refine uniqueLoop_nodup rest (keys ++ [x]) (acc ++ [x])
        (fun y => by
          simp only [List.mem_append, List.mem_singleton]
          exact or_congr_left (hka y)) ?_
      refine List.Nodup.append hnd (List.nodup_singleton x) ?_
      intro y hy hy'
      rcases List.mem_singleton.mp hy' with rfl
      exact hx ((hka y).mpr hy)

theorem unique_mem (l : List String) (a : String) : a ∈ unique l ↔ a ∈ l := by
  rw [unique, uniqueLoop_mem l [] [] (fun _ => Iff.rfl) a]
  simp

theorem unique_nodup (l : List String) : (unique l).Nodup :=
  uniqueLoop_nodup l [] [] (fun _ => Iff.rfl) List.nodup_nil

theorem uniqueLoop_eq_foldl : ∀ (l acc : List String),
    uniqueLoop l acc acc =
      l.foldl (fun acc x => if x ∈ acc then acc else acc ++ [x]) acc
  | [], _ => rfl
  | x :: rest, acc => by
    simp only [uniqueLoop, List.foldl_cons]
    by_cases hx : x ∈ acc
    · rw [if_pos hx, if_pos hx, uniqueLoop_eq_foldl rest acc]
    · rw [if_neg hx, if_neg hx, uniqueLoop_eq_foldl rest (acc ++ [x])]

theorem unique_eq_dedupFirstSeen (l : List String) :
    unique l = dedupFirstSeen l :=
  uniqueLoop_eq_foldl l []

/-! ## Lemmas about the normalizer pipeline -/

theorem cleanPathsLoop_eq_map (project : String) : ∀ (l acc : List String),
    cleanPathsLoop project l acc =
      acc ++ l.map (fun p => filepathClean (stringsReplaceOnce p (project ++ "/") ""))
  | [], acc => by simp [cleanPathsLoop]
  | p :: rest, acc => by
    simp only [cleanPathsLoop, List.map_cons]
    rw [cleanPathsLoop_eq_map project rest]
    simp

theorem cleanPaths_mem_all (paths : List String) (project : String) :
    "**/*" ∈ cleanPaths paths project := by
  rw [cleanPaths]
  refine (sortStrings_perm _).mem_iff.mpr ?_
  rw [unique_mem]
  simp

theorem cleanPaths_nodup (paths : List String) (project : String) :
    (cleanPaths paths project).Nodup :=
  ((sortStrings_perm _).nodup_iff).mpr (unique_nodup _)

/-- C7: for every input raw-path list and project path, the list returned
by cleanPaths is sorted ascending in the lexicographic string order and
contains no duplicate entries. -/
theorem cleanPaths_sorted_nodup (paths : List String) (project : String) :
    (cleanPaths paths project).Sorted (fun a b => strLe a b = true) ∧
      (cleanPaths paths project).Nodup :=
  ⟨sortStrings_sorted _, cleanPaths_nodup paths project⟩

/-- C8: for every project and raw-path input, the normalized list contains
the literal pattern of four characters star star slash star exactly once. -/
theorem cleanPaths_count_all_one (paths : List String) (project : String) :
    List.count "**/*" (cleanPaths paths project) = 1 :=
  List.count_eq_one_of_mem (cleanPaths_nodup paths project)
    (cleanPaths_mem_all paths project)

/-- C3, counterexample: on the raw path a/p/b with project path p, the code
(which delegates to Go strings.Replace with count 1) removes the embedded,
non-leading occurrence of the project prefix, while the five-step reference
pipeline of the spec, whose step 1 removes only a leading occurrence,
leaves the path unchanged; the outputs differ. -/
theorem cleanPaths_ne_specLeading_at_embedded :
    cleanPaths ["a/p/b"] "p" = ["**/*", "a/b"] ∧
      pathNormalizeSpecLeading ["a/p/b"] "p" = ["**/*", "a/p/b"] ∧
      cleanPaths ["a/p/b"] "p" ≠ pathNormalizeSpecLeading ["a/p/b"] "p" := by
  refine ⟨by decide, by decide, ?_⟩
  decide

/-! ## Lemmas about the closure resolver -/

theorem getWMPF_succ (f : Nat) (path : String) (deps : DepMap) :
    getWMPF (f + 1) path deps =
      goWMP f path deps (mapGet deps (filepathClean path)) := rfl

theorem goWMP_nil (f : Nat) (path : String) (deps : DepMap) :
    goWMP f path deps [] = some [] := rfl

theorem goWMP_cons (f : Nat) (path : String) (deps : DepMap) (d : String)
    (rest : List String) :
    goWMP f path deps (d :: rest) =
      match getWMPF f (path ++ "/" ++ d) deps, goWMP f path deps rest with
      | some sub, some tail =>
          some ((path ++ "/" ++ d ++ "/**/*") :: (sub ++ tail))
      | _, _ => none := rfl

/-- Fuel monotonicity: a result reached within some recursion depth is
reached, unchanged, at every larger depth. -/
theorem getWMPF_mono : ∀ f g : Nat, f ≤ g → ∀ (path : String) (deps : DepMap)
    (l : List String), getWMPF f path deps = some l → getWMPF g path deps = some l := by
  intro f
  induction f with
  | zero => intro g _ path deps l h; exact absurd h (by simp [getWMPF])
  | succ f ihf =>
    intro g hg path deps l h
    cases g with
    | zero => omega
    | succ g' =>
      have hf : f ≤ g' := by omega
      rw [getWMPF_succ] at h ⊢
      revert l
      induction mapGet deps (filepathClean path) with
      | nil => intro l h; exact h
      | cons d rest ihds =>
        intro l h
        rw [goWMP_cons] at h ⊢
        cases h₁ : getWMPF f (path ++ "/" ++ d) deps with
        | none => rw [h₁] at h; exact absurd h (by simp)
        | some sub =>
          rw [h₁] at h
          cases h₂ : goWMP f path deps rest with
          | none => rw [h₂] at h; exact absurd h (by simp)
          | some tail =>
            rw [h₂] at h
            rw [ihf g' hf _ _ _ h₁, ihds tail h₂]
            exact h

theorem goWMP_mono (f g : Nat) (hfg : f ≤ g) (path : String) (deps : DepMap) :
    ∀ (ds : List String) (l : List String),
      goWMP f path deps ds = some l → goWMP g path deps ds = some l := by
  intro ds
  induction ds with
  | nil => intro l h; exact h
  | cons d rest ih =>
    intro l h
    rw [goWMP_cons] at h ⊢
    cases h₁ : getWMPF f (path ++ "/" ++ d) deps with
    | none => rw [h₁] at h; exact absurd h (by simp)
    | some sub =>
      rw [h₁] at h
      cases h₂ : goWMP f path deps rest with
      | none => rw [h₂] at h; exact absurd h (by simp)
      | some tail =>
        rw [h₂] at h
        rw [getWMPF_mono f g hfg _ _ _ h₁, ih tail h₂]
        exact h

theorem closureResolveSpecF_succ (f : Nat) (path : String) (deps : DepMap) :
    closureResolveSpecF (f + 1) path deps =
      goSpec f path deps (mapGet deps (filepathClean path)) [] := rfl

theorem goSpec_foldl_none (f : Nat) (path : String) (deps : DepMap) :
    ∀ ds : List String,
      ds.foldl
        (fun acc d =>
          match acc, closureResolveSpecF f (path ++ "/" ++ d) deps with
          | some dn, some sub =>
              some (dn ++ (path ++ "/" ++ d ++ "/**/*") :: sub)
          | _, _ => none)
        none = none
  | [] => rfl
  | _ :: rest => goSpec_foldl_none f path deps rest

theorem goSpec_cons (f : Nat) (path : String) (deps : DepMap) (d : String)
    (rest done : List String) :
    goSpec f path deps (d :: rest) done =
      match closureResolveSpecF f (path ++ "/" ++ d) deps with
      | some sub =>
          goSpec f path deps rest (done ++ (path ++ "/" ++ d ++ "/**/*") :: sub)
      | none => none := by
  simp only [goSpec, List.foldl_cons]
  cases h : closureResolveSpecF f (path ++ "/" ++ d) deps with
  | none => exact goSpec_foldl_none f path deps rest
  | some sub => rfl

theorem goSpec_eq_goWMP (f : Nat) (path : String) (deps : DepMap)
    (hR : ∀ p, closureResolveSpecF f p deps = getWMPF f p deps) :
    ∀ (ds done : List String),
      goSpec f path deps ds done = (goWMP f path deps ds).map (done ++ ·) := by
  intro ds
  induction ds with
  | nil => intro done; simp [goSpec, goWMP_nil]
  | cons d rest ih =>
    intro done
    rw [goWMP_cons, goSpec_cons, hR (path ++ "/" ++ d)]
    cases h₁ : getWMPF f (path ++ "/" ++ d) deps with
    | none => simp
    | some sub =>
      change goSpec f path deps rest (done ++ (path ++ "/" ++ d ++ "/**/*") :: sub) = _
      rw [ih (done ++ (path ++ "/" ++ d ++ "/**/*") :: sub)]
      cases h₂ : goWMP f path deps rest with
      | none => simp
      | some tail => simp

/-- C2: the resolver agrees, at every recursion depth, with the transcription
of the spec: look the graph up under the lexically cleaned current path and,
for each dependency address in sequence order, first emit the un-normalized
raw pattern and then append the recursive result for the extended path,
accumulating in order. -/
theorem getWMPF_eq_closureResolveSpecF :
    ∀ (f : Nat) (path : String) (deps : DepMap),
      getWMPF f path deps = closureResolveSpecF f path deps := by
  intro f
  induction f with
  | zero => intro path deps; rfl
  | succ f ih =>
    intro path deps
    rw [getWMPF_succ, closureResolveSpecF_succ,
      goSpec_eq_goWMP f path deps (fun p => (ih p deps).symm)]
    cases goWMP f path deps (mapGet deps (filepathClean path)) <;> simp

/-! ## Lemmas about missing graph keys -/

theorem mapGet_eq_nil_of_not_hasKey : ∀ (deps : DepMap) (k : String),
    mapHasKey deps k = false → mapGet deps k = []
  | [], _, _ => rfl
  | (k', v) :: rest, k, h => by
    simp only [mapHasKey, Bool.or_eq_false_iff, decide_eq_false_iff_not] at h
    simp only [mapGet, if_neg h.1]
    exact mapGet_eq_nil_of_not_hasKey rest k h.2

theorem mapGet_append_emptyEntry (deps : DepMap) (k : String)
    (h : mapHasKey deps k = false) :
    ∀ key, mapGet (deps ++ [(k, [])]) key = mapGet deps key := by
  induction deps with
  | nil =>
    intro key
    simp only [mapGet, List.nil_append]
    split <;> rfl
  | cons e rest ih =>
    intro key
    obtain ⟨k', v⟩ := e
    simp only [mapHasKey, Bool.or_eq_false_iff, decide_eq_false_iff_not] at h
    simp only [List.cons_append, mapGet]
    by_cases hk : k' = key
    · rw [if_pos hk, if_pos hk]
    · rw [if_neg hk, if_neg hk]
      exact ih h.2 key

theorem getWMPF_append_emptyEntry (deps : DepMap) (k : String)
    (h : mapHasKey deps k = false) :
    ∀ (g : Nat) (q : String),
      getWMPF g q (deps ++ [(k, [])]) = getWMPF g q deps := by
  intro g
  induction g with
  | zero => intro q; rfl
  | succ g ih =>
    intro q
    rw [getWMPF_succ, getWMPF_succ, mapGet_append_emptyEntry deps k h]
    induction mapGet deps (filepathClean q) with
    | nil => rfl
    | cons d rest ihds => rw [goWMP_cons, goWMP_cons, ih (q ++ "/" ++ d), ihds]

/-- C10: when the lexically cleaned starting path is not a key of the
dependency map, the resolver returns the empty list at every positive
recursion depth rather than failing, and extending the map with an explicit
empty-sequence entry under that key changes no resolution result at all:
a missing key behaves exactly like an empty dependency sequence. -/
theorem getWMPF_missing_key (deps : DepMap) (path : String) (f : Nat)
    (h : mapHasKey deps (filepathClean path) = false) :
    getWMPF (f + 1) path deps = some [] ∧
      ∀ (g : Nat) (q : String),
        getWMPF g q (deps ++ [(filepathClean path, [])]) = getWMPF g q deps := by
  constructor
  · rw [getWMPF_succ, mapGet_eq_nil_of_not_hasKey deps _ h, goWMP_nil]
  · exact getWMPF_append_emptyEntry deps _ h

/-- Witness for C10 at a concrete missing key: the cleaned form of x/y/..
is x, which is not a key of the one-entry map with key a. -/
theorem getWMPF_missing_key_witness :
    mapHasKey [("a", ["b"])] (filepathClean "x/y/..") = false ∧
      getWMPF 1 "x/y/.." [("a", ["b"])] = some [] :=
  ⟨by decide, (getWMPF_missing_key [("a", ["b"])] "x/y/.." 0 (by decide)).1⟩

/-- C3, amended: cleanPaths equals the five-step reference pipeline with
step 1 amended to remove the first occurrence of the project prefix
anywhere in the string (exactly one removal, leftmost occurrence), the
remaining four steps as the spec states them. -/
theorem cleanPaths_eq_pipeline_firstOcc (paths : List String) (project : String) :
    cleanPaths paths project = pathNormalizeFirstOcc paths project := by
  rw [cleanPaths, pathNormalizeFirstOcc, unique_eq_dedupFirstSeen,
    cleanPathsLoop_eq_map, List.map_map]
  rfl

/-! ## Termination and divergence of the resolver -/

theorem splitSlash_ne_nil : ∀ l : List Char, splitSlash l ≠ []
  | [] => by simp [splitSlash]
  | c :: cs => by
    by_cases hc : c = '/'
    · simp [splitSlash, hc]
    · simp only [splitSlash, if_neg hc]
      cases h : splitSlash cs <;> simp

theorem splitSlash_cons (c : Char) (cs : List Char) :
    splitSlash (c :: cs) =
      if c = '/' then [] :: splitSlash cs
      else
        match splitSlash cs with
        | [] => [[c]]
        | s :: ss => (c :: s) :: ss := rfl

theorem splitSlash_append_slashdot : ∀ l : List Char,
    splitSlash (l ++ ['/', '.']) = splitSlash l ++ [['.']]
  | [] => rfl
  | c :: cs => by
    have ih := splitSlash_append_slashdot cs
    rw [List.cons_append, splitSlash_cons, splitSlash_cons]
    by_cases hc : c = '/'
    · rw [if_pos hc, if_pos hc, ih]
      rfl
    · rw [if_neg hc, if_neg hc, ih]
      cases h : splitSlash cs with
      | nil => exact absurd h (splitSlash_ne_nil cs)
      | cons s ss => rfl

theorem cleanPush_dot (rooted : Bool) (out : List (List Char)) :
    cleanPush rooted out ['.'] = out := by simp [cleanPush]

theorem cleanChars_append_slashdot (l : List Char) (hl : l ≠ []) :
    cleanChars (l ++ ['/', '.']) = cleanChars l := by
  cases l with
  | nil => exact absurd rfl hl
  | cons c cs =>
    simp only [cleanChars]
    rw [if_neg (by simp : ¬ ((c :: cs) ++ ['/', '.'] : List Char) = []),
      if_neg (by simp : ¬ (c :: cs : List Char) = [])]
    rw [splitSlash_append_slashdot, List.foldl_append]
    have hh : ((c :: cs) ++ ['/', '.'] : List Char).head? = (c :: cs).head? := rfl
    rw [hh, List.foldl_cons, List.foldl_nil, cleanPush_dot]

theorem filepathClean_slashdot (p : String) (hp : p ≠ "") :
    filepathClean (p ++ "/" ++ ".") = filepathClean p := by
  have hd : (p ++ "/" ++ ".").data = p.data ++ ['/', '.'] := by
    rw [String.data_append, String.data_append, List.append_assoc]
    rfl
  have hpd : p.data ≠ [] := fun h => hp (String.ext (h.trans rfl))
  simp only [filepathClean]
  rw [hd, cleanChars_append_slashdot p.data hpd]

/-- On the one-node cyclic graph whose single key a lists the dependency
address dot, the resolver exhausts every recursion depth: the extended path
keeps cleaning back to the same key. -/
theorem getWMPF_cyc_none : ∀ (f : Nat) (p : String),
    filepathClean p = "a" → getWMPF f p [("a", ["."])] = none := by
  intro f
  induction f with
  | zero => intro p _; rfl
  | succ f ih =>
    intro p hp
    have hpne : p ≠ "" := by
      intro h
      rw [h] at hp
      exact absurd hp (by decide)
    rw [getWMPF_succ, hp]
    have hmg : mapGet [("a", ["."])] "a" = ["."] := by simp [mapGet]
    rw [hmg, goWMP_cons,
      ih (p ++ "/" ++ ".") (by rw [filepathClean_slashdot p hpne, hp])]

/-- C4: the resolver terminates whenever the recursion relation from the
starting path (successive raw paths produced via cleaned-path lookups) is
accessible, i.e. the reachable part of the dependency graph is acyclic:
some finite fuel returns a value. And the function has no cycle guard: on
a cyclic graph (key a listing the address dot, so the cleaned path recurs
forever) every fuel is exhausted, i.e. the Go recursion is unbounded. -/
theorem getWMPF_total_iff_acyclic :
    (∀ (deps : DepMap) (start : String),
        Acc (fun a b => a ∈ stepSuccs deps b) start →
        ∃ f, (getWMPF f start deps).isSome = true) ∧
      (∀ f, getWMPF f "a" [("a", ["."])] = none) := by
  constructor
  · intro deps start hacc
    induction hacc with
    | intro x hx ih =>
      have key : ∀ ds : List String,
          (∀ d ∈ ds, (x ++ "/" ++ d) ∈ stepSuccs deps x) →
          ∃ f l, goWMP f x deps ds = some l := by
        intro ds
        induction ds with
        | nil => exact fun _ => ⟨0, [], rfl⟩
        | cons d rest ihds =>
          intro hsub
          obtain ⟨f₁, hsome₁⟩ := ih (x ++ "/" ++ d) (hsub d (List.mem_cons_self d rest))
          obtain ⟨l₁, hl₁⟩ := Option.isSome_iff_exists.mp hsome₁
          obtain ⟨f₂, l₂, hl₂⟩ :=
            ihds (fun d' hd' => hsub d' (List.mem_cons_of_mem d hd'))
          refine ⟨max f₁ f₂, (x ++ "/" ++ d ++ "/**/*") :: (l₁ ++ l₂), ?_⟩
          rw [goWMP_cons, getWMPF_mono f₁ (max f₁ f₂) (le_max_left _ _) _ _ _ hl₁,
            goWMP_mono f₂ (max f₁ f₂) (le_max_right _ _) _ _ _ _ hl₂]
      obtain ⟨f, l, hfl⟩ :=
        key (mapGet deps (filepathClean x))
          (fun d hd => List.mem_map_of_mem _ hd)
      exact ⟨f + 1, by rw [getWMPF_succ, hfl]; rfl⟩
  · exact fun f => getWMPF_cyc_none f "a" (by decide)

/-- Witness for C4: on the acyclic one-edge graph (key a listing address b)
the accessibility hypothesis holds at starting path a, so some fuel
resolves it. -/
theorem getWMPF_total_witness :
    ∃ f, (getWMPF f "a" [("a", ["b"])]).isSome = true := by
  have h2 : Acc (fun a b => a ∈ stepSuccs [("a", ["b"])] b) "a/b" := by
    refine Acc.intro _ (fun y hy => ?_)
    have hs : stepSuccs [("a", ["b"])] "a/b" = [] := by decide
    rw [hs] at hy
    exact absurd hy (List.not_mem_nil y)
  have h1 : Acc (fun a b => a ∈ stepSuccs [("a", ["b"])] b) "a" := by
    refine Acc.intro _ (fun y hy => ?_)
    have hs : stepSuccs [("a", ["b"])] "a" = ["a/b"] := by decide
    rw [hs] at hy
    rcases List.mem_singleton.mp hy with rfl
    exact h2
  exact getWMPF_total_iff_acyclic.1 [("a", ["b"])] "a" h1

/-! ## The module-call filter -/

theorem processCalls_mem (fs : String → Bool) (path : String) :
    ∀ (calls acc : List String) (a : String),
      a ∈ processCalls fs path calls acc ↔
        a ∈ acc ∨ (a ∈ calls ∧ fs (filepathJoin path a) = true)
  | [], acc, a => by simp [processCalls]
  | c :: rest, acc, a => by
    simp only [processCalls]
    by_cases hc : fs (filepathJoin path c) = true ∧ c ∉ acc
    · rw [if_pos hc, processCalls_mem fs path rest (acc ++ [c]) a]
      simp only [List.mem_append, List.mem_cons, List.not_mem_nil, or_false]
      constructor
      · rintro ((h | rfl) | ⟨h, hf⟩)
        · exact Or.inl h
        · exact Or.inr ⟨Or.inl rfl, hc.1⟩
        · exact Or.inr ⟨Or.inr h, hf⟩
      · rintro (h | ⟨(rfl | h), hf⟩)
        · exact Or.inl (Or.inl h)
        · exact Or.inl (Or.inr rfl)
        · exact Or.inr ⟨h, hf⟩
    · rw [if_neg hc, processCalls_mem fs path rest acc a]
      simp only [List.mem_cons]
      constructor
      · rintro (h | ⟨h, hf⟩)
        · exact Or.inl h
        · exact Or.inr ⟨Or.inr h, hf⟩
      · rintro (h | ⟨(rfl | h), hf⟩)
        · exact Or.inl h
        · refine Or.inl (by_contra fun hna => hc ⟨hf, hna⟩)
        · exact Or.inr ⟨h, hf⟩

theorem processCalls_nodup (fs : String → Bool) (path : String) :
    ∀ (calls acc : List String), acc.Nodup → (processCalls fs path calls acc).Nodup
  | [], _, hnd => hnd
  | c :: rest, acc, hnd => by
    simp only [processCalls]
    by_cases hc : fs (filepathJoin path c) = true ∧ c ∉ acc
    · rw [if_pos hc]
      refine processCalls_nodup fs path rest (acc ++ [c]) ?_
      refine List.Nodup.append hnd (List.nodup_singleton c) ?_
      intro y hy hy'
      rcases List.mem_singleton.mp hy' with rfl
      exact hc.2 hy
    · rw [if_neg hc]
      exact processCalls_nodup fs path rest acc hnd

theorem processCalls_sub (fs : String → Bool) (path : String) :
    ∀ (calls acc : List String), ∃ t,
      processCalls fs path calls acc = acc ++ t ∧ t.Sublist calls
  | [], acc => ⟨[], by simp [processCalls], List.nil_sublist []⟩
  | c :: rest, acc => by
    by_cases hc : fs (filepathJoin path c) = true ∧ c ∉ acc
    · obtain ⟨t, ht, hs⟩ := processCalls_sub fs path rest (acc ++ [c])
      refine ⟨c :: t, ?_, hs.cons₂ c⟩
      rw [processCalls, if_pos hc, ht]
      simp
    · obtain ⟨t, ht, hs⟩ := processCalls_sub fs path rest acc
      refine ⟨t, ?_, hs.cons c⟩
      rw [processCalls, if_neg hc, ht]

/-- C5: a reported dependency address reaches the dependency sequence of a
directory exactly when joining the directory path with the address yields
an existing path and the address is not already in the sequence: membership
in the built sequence is equivalent to being a reported address whose
joined path exists, the sequence has no duplicates, and it is a
subsequence of the reported addresses (first occurrences, in order). -/
theorem processCalls_filters_and_dedups (fs : String → Bool) (path : String)
    (calls : List String) :
    (∀ a, a ∈ processCalls fs path calls [] ↔
        a ∈ calls ∧ fs (filepathJoin path a) = true) ∧
      (processCalls fs path calls []).Nodup ∧
      (processCalls fs path calls []).Sublist calls := by
  refine ⟨fun a => ?_, processCalls_nodup fs path calls [] List.nodup_nil, ?_⟩
  · rw [processCalls_mem]
    simp
  · obtain ⟨t, ht, hs⟩ := processCalls_sub fs path calls []
    rw [ht]
    simpa using hs

/-! ## Pruning of ignored directories -/

theorem walkTree_node (fs : String → Bool) (path nm : String) (im hb : Bool)
    (calls : List String) (children : List DirTree) (acc : WalkAcc) :
    walkTree fs path (.node nm im hb calls children) acc =
      if nm ∈ IGNORE_DIRS then acc
      else
        walkForest fs path children
          (if im ∧ hb then acc.1 ++ [path] else acc.1,
            acc.2 ++ [(path, if im then processCalls fs path calls [] else [])]) := by
  rw [walkTree]
  by_cases h : nm ∈ IGNORE_DIRS
  · rw [if_pos h, if_pos h]
  · rw [if_neg h, if_neg h]
    exact List.foldl_attach children
      (fun a c => walkTree fs (filepathJoin path c.name) c a) _

theorem walkForest_cons (fs : String → Bool) (path : String) (c : DirTree)
    (rest : List DirTree) (acc : WalkAcc) :
    walkForest fs path (c :: rest) acc =
      walkForest fs path rest (walkTree fs (filepathJoin path c.name) c acc) := rfl

theorem walkTree_ignored (fs : String → Bool) (path : String) (t : DirTree)
    (ht : t.name ∈ IGNORE_DIRS) : ∀ acc, walkTree fs path t acc = acc := by
  intro acc
  cases t with
  | node nm im hb calls children =>
    simp only [DirTree.name] at ht
    rw [walkTree_node, if_pos ht]

theorem walkForest_drop_ignored (fs : String → Bool) (path : String)
    (c : DirTree) (hc : c.name ∈ IGNORE_DIRS) :
    ∀ (pre post : List DirTree) (acc : WalkAcc),
      walkForest fs path (pre ++ c :: post) acc =
        walkForest fs path (pre ++ post) acc := by
  intro pre
  induction pre with
  | nil =>
    intro post acc
    rw [List.nil_append, List.nil_append, walkForest_cons,
      walkTree_ignored fs (filepathJoin path c.name) c hc]
  | cons p pre ih =>
    intro post acc
    rw [List.cons_append, List.cons_append, walkForest_cons, walkForest_cons]
    exact ih post _

/-- C6: a directory whose name is in the ignore set is pruned with its
whole subtree: walking it adds nothing to either accumulator, wherever it
is reached and whatever has been accumulated, and the full walk of a tree
containing it among its children equals the full walk of the tree with
that child removed, so neither the ignored directory nor any descendant
ever receives a dependency-map entry or a project-list entry. -/
theorem ignored_subtree_pruned (fs : String → Bool) (root nm : String)
    (im hb : Bool) (calls : List String) (pre : List DirTree) (c : DirTree)
    (post : List DirTree) (hc : c.name ∈ IGNORE_DIRS) :
    (∀ (path : String) (acc : WalkAcc), walkTree fs path c acc = acc) ∧
      getProjectsAndDependencies fs root
          (DirTree.node nm im hb calls (pre ++ c :: post)) =
        getProjectsAndDependencies fs root
          (DirTree.node nm im hb calls (pre ++ post)) := by
  refine ⟨fun path acc => walkTree_ignored fs path c hc acc, ?_⟩
  rw [getProjectsAndDependencies, getProjectsAndDependencies]
  by_cases hnm : nm ∈ IGNORE_DIRS
  · rw [walkTree_ignored fs root _ (by simpa [DirTree.name] using hnm),
      walkTree_ignored fs root _ (by simpa [DirTree.name] using hnm)]
  · rw [walkTree_node, walkTree_node, if_neg hnm, if_neg hnm]
    exact walkForest_drop_ignored fs root c hc pre post _

/-- Witness for C6: a directory named .git is in the ignore set and its
subtree contributes nothing to the walk. -/
theorem ignored_subtree_pruned_witness :
    (DirTree.name (DirTree.node ".git" true true ["m"] []) ∈ IGNORE_DIRS) ∧
      walkTree (fun _ => true) "r" (DirTree.node ".git" true true ["m"] [])
          ([], []) = ([], []) :=
  ⟨by decide,
    (ignored_subtree_pruned (fun _ => true) "r" "x" false false [] []
      (DirTree.node ".git" true true ["m"] []) [] (by decide)).1 "r" ([], [])⟩

/-! ## The assembler: replacement and frame of the scalar options -/

theorem addProjects_foldl_scalars (f : Nat) (root : String) (ps : List String)
    (deps : DepMap) (cfg : AtlantisConfig) :
    ∀ (ord : List Nat) (init : Option AtlantisConfig) (out : AtlantisConfig),
      (∀ c, init = some c →
        c.automerge = cfg.automerge ∧
        c.deleteSourceBranchOnMerge = cfg.deleteSourceBranchOnMerge ∧
        c.parallelApply = cfg.parallelApply ∧
        c.parallelPlan = cfg.parallelPlan ∧
        c.version = cfg.version) →
      List.foldl
        (fun acc i =>
          acc.bind (fun c =>
            ps[i]?.bind (fun p =>
              (makeProjectConfigF f root p deps).map (fun pc =>
                { c with projects := c.projects ++ [pc] }))))
        init ord = some out →
      out.automerge = cfg.automerge ∧
        out.deleteSourceBranchOnMerge = cfg.deleteSourceBranchOnMerge ∧
        out.parallelApply = cfg.parallelApply ∧
        out.parallelPlan = cfg.parallelPlan ∧
        out.version = cfg.version := by
  intro ord
  induction ord with
  | nil =>
    intro init out hinv h
    exact hinv out (by simpa using h)
  | cons i rest ih =>
    intro init out hinv h
    rw [List.foldl_cons] at h
    refine ih _ out ?_ h
    intro c hc
    cases hinit : init with
    | none => rw [hinit] at hc; exact absurd hc (by simp)
    | some c₀ =>
      rw [hinit, Option.some_bind] at hc
      cases hp : ps[i]? with
      | none => rw [hp] at hc; exact absurd hc (by simp)
      | some p =>
        rw [hp, Option.some_bind] at hc
        cases hm : makeProjectConfigF f root p deps with
        | none => rw [hm] at hc; exact absurd hc (by simp)
        | some pc =>
          rw [hm] at hc
          obtain ⟨h1, h2, h3, h4, h5⟩ := hinv c₀ hinit
          cases Option.some.inj hc
          exact ⟨h1, h2, h3, h4, h5⟩

/-- C9: the assembler replaces any pre-existing projects list outright
(the result never depends on the projects list of the input configuration)
and, whenever a configuration is produced, its five scalar options equal
those of the input configuration verbatim. -/
theorem addProjects_replaces_and_frames (f : Nat) (root : String)
    (cfg : AtlantisConfig) (ps : List String) (deps : DepMap)
    (ord : List Nat) (ps₀ : List ProjectConfig) :
    addProjectsToConfigF f root { cfg with projects := ps₀ } ps deps ord =
        addProjectsToConfigF f root cfg ps deps ord ∧
      ∀ out, addProjectsToConfigF f root cfg ps deps ord = some out →
        out.automerge = cfg.automerge ∧
        out.deleteSourceBranchOnMerge = cfg.deleteSourceBranchOnMerge ∧
        out.parallelApply = cfg.parallelApply ∧
        out.parallelPlan = cfg.parallelPlan ∧
        out.version = cfg.version := by
  constructor
  · rfl
  · intro out h
    refine addProjects_foldl_scalars f root ps deps cfg ord
      (some { cfg with projects := [] }) out (fun c hc => ?_) h
    cases Option.some.inj hc
    exact ⟨rfl, rfl, rfl, rfl, rfl⟩

/-- Witness for C9 at a one-project run: the result exists and its scalar
options equal those of the input configuration. -/
theorem addProjects_replaces_and_frames_witness :
    (addProjectsToConfigF 1 "r" ⟨true, false, true, false, [], 3⟩
        ["r/p"] [] [0] =
      some ⟨true, false, true, false, [⟨⟨true, ["**/*"]⟩, "p", "p"⟩], 3⟩) ∧
      ((⟨true, false, true, false, [⟨⟨true, ["**/*"]⟩, "p", "p"⟩], 3⟩ :
          AtlantisConfig).automerge =
          (⟨true, false, true, false, [], 3⟩ : AtlantisConfig).automerge ∧
        (⟨true, false, true, false, [⟨⟨true, ["**/*"]⟩, "p", "p"⟩], 3⟩ :
          AtlantisConfig).deleteSourceBranchOnMerge =
          (⟨true, false, true, false, [], 3⟩ :
            AtlantisConfig).deleteSourceBranchOnMerge ∧
        (⟨true, false, true, false, [⟨⟨true, ["**/*"]⟩, "p", "p"⟩], 3⟩ :
          AtlantisConfig).parallelApply =
          (⟨true, false, true, false, [], 3⟩ : AtlantisConfig).parallelApply ∧
        (⟨true, false, true, false, [⟨⟨true, ["**/*"]⟩, "p", "p"⟩], 3⟩ :
          AtlantisConfig).parallelPlan =
          (⟨true, false, true, false, [], 3⟩ : AtlantisConfig).parallelPlan ∧
        (⟨true, false, true, false, [⟨⟨true, ["**/*"]⟩, "p", "p"⟩], 3⟩ :
          AtlantisConfig).version =
          (⟨true, false, true, false, [], 3⟩ : AtlantisConfig).version) :=
  ⟨by decide,
    (addProjects_replaces_and_frames 1 "r" ⟨true, false, true, false, [], 3⟩
        ["r/p"] [] [0] []).2
      ⟨true, false, true, false, [⟨⟨true, ["**/*"]⟩, "p", "p"⟩], 3⟩ (by decide)⟩

/-- C1: evaluating the assembler embedding at two projects under the two
possible completion schedules of the concurrent appends. The shared-slice
append order follows goroutine completion, so the schedule that lands the
second project first yields the project records in reversed, non-discovery
order: the output order is NOT invariant under completion order, contrary
to the claim (and to the repository's own TestAddProjectsToConfig, which
expects discovery order). -/
theorem addProjects_order_follows_schedule :
    (addProjectsToConfigF 1 "r" ⟨true, true, true, true, [], 3⟩
          ["r/p1", "r/p2"] [] [1, 0]).map
        (fun c => c.projects.map (fun pc => pc.name)) = some ["p2", "p1"] ∧
      (addProjectsToConfigF 1 "r" ⟨true, true, true, true, [], 3⟩
          ["r/p1", "r/p2"] [] [0, 1]).map
        (fun c => c.projects.map (fun pc => pc.name)) = some ["p1", "p2"] := by
  constructor
  · decide
  · decide
